import Mathlib

/-!
Verification of the curve-fitting utilities of FRB-Host-Correlations
(`src/utils.py`).

The model evaluator (`exgauss`, `integral`) and the fit statistics
(`rsquared`, `adjusted_rsquared`) are embedded over the reals,
parametrized by the external scipy library functions
`exponnorm.pdf` / `exponnorm.cdf` (signature: point, shape `K`, `loc`,
`scale`).  A concrete transcription of the scipy exGaussian density,
`exponnorm_pdf`, is provided for concrete evaluations.

The raw-mode range extractor (`raw_burst_range`) manipulates only the
sampled intensities with rational arithmetic, so it is embedded over `ℚ`
and is fully computable.  Its unbounded Python `while` loops advance an
index while a cumulative trapezoidal area is below a threshold; once the
index passes the end of the array the cumulative area is constant, so the
loop either stops at an index `≤ length` or never stops.  They are
therefore embedded as fuelled scans over `[start, length]` where `none`
models non-termination of the Python loop.
-/

/-- Trapezoidal rule `np.trapz(ys)` with unit spacing:
sum of `(ys[j] + ys[j+1]) / 2` over consecutive pairs. -/
def trapz : List ℚ → ℚ
  | a :: b :: l => (a + b) / 2 + trapz (b :: l)
  | _ => 0

/-- One Python loop `while np.trapz(ys[:i]) < thr: i += 1` started at `i = start`:
returns the first index `i` with `thr ≤ trapz (ys.take i)`, trying
`fuel + 1` indices; `none` means the loop never terminates (the cumulative
area is constant from `ys.length` on, so `fuel = ys.length - start` is
exhaustive). -/
def scanArea (ys : List ℚ) (thr : ℚ) : ℕ → ℕ → Option ℕ
  | i, 0 => if thr ≤ trapz (ys.take i) then some i else none
  | i, fuel + 1 =>
    if thr ≤ trapz (ys.take i) then some i else scanArea ys thr (i + 1) fuel

/-- `utils.raw_burst_range(ys, area, extra_width)`.  Finds the middle range
containing `area` proportion of total area under the curve, then extends the
range by `extra_width` on each side.  The two `while` loops are `scanArea`
with exhaustive fuel; the returned bounds are the untruncated rationals
`max(0, low - width)` and `min(len(ys), i + width)` of the source. -/
def raw_burst_range (ys : List ℚ) (area extra_width : ℚ) : Option (ℚ × ℚ) :=
  let total_area := trapz ys
  let low_area := (1 - area) / 2 * total_area
  let high_area := (1 + area) / 2 * total_area
  match scanArea ys low_area 0 ys.length with
  | none => none
  | some low =>
    match scanArea ys high_area low (ys.length - low) with
    | none => none
    | some i =>
      let width := ((i : ℚ) - (low : ℚ)) * extra_width
      some (max 0 ((low : ℚ) - width), min (ys.length : ℚ) ((i : ℚ) + width))

/-- `utils.exgauss(x, *args)`: the sum over `i in range(0, len(args)-1, 3)`
of `args[i] * exponnorm.pdf(x, ts / args[i+2], loc=args[i+1],
scale=args[i+2])` where `ts = args[-1]`.  The scipy density is the explicit
parameter `pdf` (point, shape, loc, scale).  `range(0, len-1, 3)` has
`(len - 1 + 2) / 3` elements; a slice `args[i:i+3]` shorter than three
elements would make the inner Python lambda raise a `TypeError` (possible
only when `len(args) % 3 = 0`, never for the parameter vectors of the
claims); that branch is mapped to `0`. -/
noncomputable def exgauss (pdf : ℝ → ℝ → ℝ → ℝ → ℝ) (x : ℝ) (args : List ℝ) : ℝ :=
  ((List.range' 0 ((args.length - 1 + 2) / 3) 3).map fun i =>
    match (args.drop i).take 3, args.getLast? with
    | [a, u, sd], some ts => a * pdf x (ts / sd) u sd
    | _, _ => 0).sum

/-- `utils.integral(x, *args)`: same component structure as `exgauss` with
the scipy `exponnorm.cdf` in place of the pdf. -/
noncomputable def integral (cdf : ℝ → ℝ → ℝ → ℝ → ℝ) (x : ℝ) (args : List ℝ) : ℝ :=
  ((List.range' 0 ((args.length - 1 + 2) / 3) 3).map fun i =>
    match (args.drop i).take 3, args.getLast? with
    | [a, u, sd], some ts => a * cdf x (ts / sd) u sd
    | _, _ => 0).sum

/-- The error function, `erf z = 2/√π ∫_0^z exp(-t²) dt`. -/
noncomputable def erf (z : ℝ) : ℝ :=
  2 / Real.sqrt Real.pi * ∫ t in (0:ℝ)..z, Real.exp (-(t ^ 2))

/-- The complementary error function. -/
noncomputable def erfc (z : ℝ) : ℝ := 1 - erf z

/-- Transcription of `scipy.stats.exponnorm.pdf(x, K, loc, scale)`:
the location-scale family over the standardized density
`f(y; K) = 1/(2K) exp(1/(2K²) - y/K) erfc(-(y - 1/K)/√2)`. -/
noncomputable def exponnorm_pdf (x K loc scale : ℝ) : ℝ :=
  1 / (2 * K * scale) * Real.exp (1 / (2 * K ^ 2) - (x - loc) / (K * scale)) *
    erfc (-((x - loc) / scale - 1 / K) / Real.sqrt 2)

/-- One Python loop `while integral(xs[i], *params) < thr: i += 1` of
`model_burst_range`, started at `i = start`: returns the first index `i < len(xs)`
with `thr ≤ integral (xs[i])`; `none` models the `IndexError` raised when `i`
reaches `len(xs)` (`fuel = ys.length - start` makes the scan exhaustive). -/
noncomputable def scanModel (cdf : ℝ → ℝ → ℝ → ℝ → ℝ) (xs params : List ℝ) (thr : ℝ) :
    ℕ → ℕ → Option ℕ
  | i, 0 =>
    match xs[i]? with
    | none => none
    | some xi => if thr ≤ integral cdf xi params then some i else none
  | i, fuel + 1 =>
    match xs[i]? with
    | none => none
    | some xi =>
      if thr ≤ integral cdf xi params then some i
      else scanModel cdf xs params thr (i + 1) fuel

/-- `utils.model_burst_range(xs, params, area)`: central range of the fitted
curve containing `area` proportion of `integral(xs[-1])`.  Returns the two
sample indices (no expansion step); `none` models the `IndexError` on an
empty `xs` (`xs[-1]`) or on a scan running past the end of `xs`. -/
noncomputable def model_burst_range (cdf : ℝ → ℝ → ℝ → ℝ → ℝ) (xs params : List ℝ)
    (area : ℝ) : Option (ℕ × ℕ) :=
  match xs.getLast? with
  | none => none
  | some xlast =>
    let total_area := integral cdf xlast params
    let low_area := (1 - area) / 2 * total_area
    let high_area := (1 + area) / 2 * total_area
    match scanModel cdf xs params low_area 0 xs.length with
    | none => none
    | some low =>
      match scanModel cdf xs params high_area low (xs.length - low) with
      | none => none
      | some i => some (low, i)

/-- `residuals = ys - np.array([exgauss(x, *params) for x in xs])` of
`utils.rsquared`, elementwise on equal-length arrays. -/
noncomputable def residuals (pdf : ℝ → ℝ → ℝ → ℝ → ℝ) (xs ys params : List ℝ) : List ℝ :=
  List.zipWith (· - ·) ys (xs.map fun x => exgauss pdf x params)

/-- `ss_res = np.sum(residuals ** 2)` of `utils.rsquared`. -/
noncomputable def ss_res (pdf : ℝ → ℝ → ℝ → ℝ → ℝ) (xs ys params : List ℝ) : ℝ :=
  ((residuals pdf xs ys params).map fun r => r ^ 2).sum

/-- `ss_tot = np.sum((ys - np.mean(ys)) ** 2)` of `utils.rsquared`. -/
noncomputable def ss_tot (ys : List ℝ) : ℝ :=
  (ys.map fun y => (y - ys.sum / ys.length) ^ 2).sum

/-- `utils.rsquared(xs, ys, params) = 1 - ss_res / ss_tot`.  The division is
numpy float division; the embedding is faithful whenever `ss_tot ≠ 0`
(numpy returns a non-finite float when `ss_tot = 0`, which `ℝ` cannot
represent; theorems that depend on this point carry `ss_tot ys ≠ 0`). -/
noncomputable def rsquared (pdf : ℝ → ℝ → ℝ → ℝ → ℝ) (xs ys params : List ℝ) : ℝ :=
  1 - ss_res pdf xs ys params / ss_tot ys

/-- `utils.adjusted_rsquared(xs, ys, params)
  = 1 - (1 - rs) * (len(xs) - 1) / (len(xs) - len(params) - 1)`.
When the integer denominator `len(xs) - len(params) - 1` is zero the numpy
float numerator divided by it is a non-finite float (±inf or nan), i.e. no
finite real is returned: embedded as `none`. -/
noncomputable def adjusted_rsquared (pdf : ℝ → ℝ → ℝ → ℝ → ℝ) (xs ys params : List ℝ) :
    Option ℝ :=
  if ((xs.length : ℤ) - params.length - 1) = 0 then none
  else
    some (1 - (1 - rsquared pdf xs ys params) * ((xs.length : ℝ) - 1) /
      ((xs.length : ℝ) - params.length - 1))

/-- `j` is the smallest index whose cumulative trapezoidal area reaches the
threshold `thr` (the quantity located by the `while` loops of
`raw_burst_range`). -/
def reachesAt (ys : List ℚ) (thr : ℚ) (j : ℕ) : Prop :=
  thr ≤ trapz (ys.take j) ∧ ∀ k < j, trapz (ys.take k) < thr

instance (ys : List ℚ) (thr : ℚ) (j : ℕ) : Decidable (reachesAt ys thr j) := by
  unfold reachesAt
  infer_instance

section SumLemmas

/-- `range' s n 3` enumerates `s + 3*i` for `i < n`. -/
lemma range'_step3 : ∀ (n s : ℕ), List.range' s n 3 = (List.range n).map fun i => s + 3 * i
  | 0, _ => rfl
  | n + 1, s => by
    rw [List.range'_succ, range'_step3 n (s + 3), List.range_succ_eq_map, List.map_cons,
      List.map_map]
    refine congrArg₂ _ (by omega) (List.map_congr_left fun i _ => ?_)
    simp [Nat.succ_eq_add_one]
    omega

/-- Sum of a map over `List.range` as a `Finset.range` sum. -/
lemma sum_map_range (f : ℕ → ℝ) : ∀ n, ((List.range n).map f).sum = ∑ i ∈ Finset.range n, f i
  | 0 => rfl
  | n + 1 => by
    rw [List.range_succ, List.map_append, List.sum_append, Finset.sum_range_succ,
      sum_map_range f n]
    simp

/-- A three-element slice of a long enough list, elementwise. -/
lemma slice_three (l : List ℝ) (i : ℕ) (h : i + 3 ≤ l.length) :
    (l.drop i).take 3 = [l.getD i 0, l.getD (i + 1) 0, l.getD (i + 2) 0] := by
  have h0 : i < l.length := by omega
  have h1 : i + 1 < l.length := by omega
  have h2 : i + 2 < l.length := by omega
  have g0 : l.getD i 0 = l[i] := by
    rw [List.getD_eq_getElem?_getD, List.getElem?_eq_getElem h0, Option.getD_some]
  have g1 : l.getD (i + 1) 0 = l[i + 1] := by
    rw [List.getD_eq_getElem?_getD, List.getElem?_eq_getElem h1, Option.getD_some]
  have g2 : l.getD (i + 2) 0 = l[i + 2] := by
    rw [List.getD_eq_getElem?_getD, List.getElem?_eq_getElem h2, Option.getD_some]
  rw [g0, g1, g2, List.drop_eq_getElem_cons h0, List.drop_eq_getElem_cons h1,
    List.drop_eq_getElem_cons h2]
  rfl

/-- For a parameter vector of length `3k + 1`, `exgauss` is the sum over the
`k` components of `amplitude * pdf (x, ts / scale, loc, scale)`, with `ts`
the trailing entry (index `3k`). -/
lemma exgauss_eq_sum (pdf : ℝ → ℝ → ℝ → ℝ → ℝ) (x : ℝ) (args : List ℝ) (k : ℕ)
    (h : args.length = 3 * k + 1) :
    exgauss pdf x args = ∑ i ∈ Finset.range k,
      args.getD (3 * i) 0 *
        pdf x (args.getD (3 * k) 0 / args.getD (3 * i + 2) 0)
          (args.getD (3 * i + 1) 0) (args.getD (3 * i + 2) 0) := by
  have hcount : (args.length - 1 + 2) / 3 = k := by omega
  have hlast : args.getLast? = some (args.getD (3 * k) 0) := by
    have hne : args ≠ [] := by
      intro hnil
      rw [hnil] at h
      simp at h
    have h3k : 3 * k < args.length := by omega
    rw [List.getLast?_eq_getElem?, h, List.getD_eq_getElem?_getD]
    simp only [Nat.add_sub_cancel]
    rw [List.getElem?_eq_getElem (by omega), Option.getD_some]
  unfold exgauss
  rw [hcount, range'_step3 k 0, List.map_map, sum_map_range]
  refine Finset.sum_congr rfl fun i hi => ?_
  have hik : i < k := Finset.mem_range.mp hi
  have hsl : 3 * i + 3 ≤ args.length := by omega
  simp only [Function.comp_apply, Nat.zero_add]
  rw [slice_three args (3 * i) hsl, hlast]

/-- Same statement for `integral`; the two definitions share their body. -/
lemma integral_eq_sum (cdf : ℝ → ℝ → ℝ → ℝ → ℝ) (x : ℝ) (args : List ℝ) (k : ℕ)
    (h : args.length = 3 * k + 1) :
    integral cdf x args = ∑ i ∈ Finset.range k,
      args.getD (3 * i) 0 *
        cdf x (args.getD (3 * k) 0 / args.getD (3 * i + 2) 0)
          (args.getD (3 * i + 1) 0) (args.getD (3 * i + 2) 0) :=
  exgauss_eq_sum cdf x args k h

end SumLemmas

/-- Claim C1: for every parameter vector of length `3k + 1` (`k ≥ 1`) and
every point `x`, `exgauss` returns the sum over the `k` components of
`amplitude_i * exGaussianPDF(x; loc_i, scale_i, shape = ts / scale_i)`,
where `ts` is the last element (index `3k`), and `k` is determined from the
vector length alone. -/
theorem exgauss_sum_of_components (pdf : ℝ → ℝ → ℝ → ℝ → ℝ) (x : ℝ) (args : List ℝ)
    (k : ℕ) (hk : 1 ≤ k) (h : args.length = 3 * k + 1) :
    exgauss pdf x args = ∑ i ∈ Finset.range k,
      args.getD (3 * i) 0 *
        pdf x (args.getD (args.length - 1) 0 / args.getD (3 * i + 2) 0)
          (args.getD (3 * i + 1) 0) (args.getD (3 * i + 2) 0) := by
  have hlen : args.length - 1 = 3 * k := by omega
  rw [hlen]
  exact exgauss_eq_sum pdf x args k h

/-- Witness for C1 at `k = 1`, a concrete vector and a concrete pdf. -/
theorem exgauss_sum_of_components_witness :
    exgauss (fun x K l s => x + K + l + s) 10 [2, 3, 5, 7] = 194 / 5 := by
  have h := exgauss_sum_of_components (fun x K l s => x + K + l + s) 10 [2, 3, 5, 7] 1
    (le_refl 1) (by simp)
  rw [h]
  norm_num

/-- Claim C2: for every parameter vector of length `3k + 1` (`k ≥ 1`) and
every point `x`, `integral` returns the same `k`-component sum as `exgauss`
with each pdf replaced by the corresponding cumulative distribution
function. -/
theorem integral_sum_of_cdfs (cdf : ℝ → ℝ → ℝ → ℝ → ℝ) (x : ℝ) (args : List ℝ)
    (k : ℕ) (hk : 1 ≤ k) (h : args.length = 3 * k + 1) :
    integral cdf x args = ∑ i ∈ Finset.range k,
      args.getD (3 * i) 0 *
        cdf x (args.getD (args.length - 1) 0 / args.getD (3 * i + 2) 0)
          (args.getD (3 * i + 1) 0) (args.getD (3 * i + 2) 0) := by
  have hlen : args.length - 1 = 3 * k := by omega
  rw [hlen]
  exact integral_eq_sum cdf x args k h

/-- Witness for C2 at `k = 1`, a concrete vector and a concrete cdf. -/
theorem integral_sum_of_cdfs_witness :
    integral (fun x K l s => x * K + l * s) 2 [3, 4, 5, 6] = 336 / 5 := by
  have h := integral_sum_of_cdfs (fun x K l s => x * K + l * s) 2 [3, 4, 5, 6] 1
    (le_refl 1) (by simp)
  rw [h]
  norm_num

/-- Claim C9: called with a parameter vector of length 1 (only the shared
`ts`, i.e. `k = 0`), both `exgauss` and `integral` return `0` for every `x`:
the component sum is empty and no length validation is performed. -/
theorem exgauss_integral_single_ts (pdf cdf : ℝ → ℝ → ℝ → ℝ → ℝ) (x : ℝ)
    (args : List ℝ) (h : args.length = 1) :
    exgauss pdf x args = 0 ∧ integral cdf x args = 0 := by
  have h0 : (args.length - 1 + 2) / 3 = 0 := by omega
  constructor
  · unfold exgauss
    rw [h0]
    simp
  · unfold integral
    rw [h0]
    simp

/-- Witness for C9 on the vector `[5]`. -/
theorem exgauss_integral_single_ts_witness :
    exgauss (fun _ _ _ _ => 3) 7 [5] = 0 ∧ integral (fun _ _ _ _ => 4) 7 [5] = 0 :=
  exgauss_integral_single_ts (fun _ _ _ _ => 3) (fun _ _ _ _ => 4) 7 [5] (by simp)

section ScanLemmas

/-- The scan stops immediately when the threshold is already reached. -/
lemma scanArea_here {ys : List ℚ} {thr : ℚ} {start fuel : ℕ}
    (h : thr ≤ trapz (ys.take start)) : scanArea ys thr start fuel = some start := by
  cases fuel <;> simp [scanArea, h]

/-- The scan returns exactly the smallest in-range index reaching the
threshold. -/
lemma scanArea_eq_some {ys : List ℚ} {thr : ℚ} :
    ∀ (fuel start j : ℕ), start ≤ j → j ≤ start + fuel →
      thr ≤ trapz (ys.take j) → (∀ k, start ≤ k → k < j → trapz (ys.take k) < thr) →
      scanArea ys thr start fuel = some j := by
  intro fuel
  induction fuel with
  | zero =>
    intro start j h1 h2 h3 _
    have hj : j = start := by omega
    subst hj
    exact scanArea_here h3
  | succ fuel ih =>
    intro start j h1 h2 h3 h4
    rcases Nat.eq_or_lt_of_le h1 with rfl | hlt
    · exact scanArea_here h3
    · have hs : trapz (ys.take start) < thr := h4 start (le_refl start) hlt
      simp only [scanArea, if_neg (not_le.mpr hs)]
      exact ih (start + 1) j hlt (by omega) h3 fun k hk1 hk2 => h4 k (by omega) hk2

/-- Whatever the scan returns lies between `start` and `start + fuel` and
reaches the threshold. -/
lemma scanArea_bounds {ys : List ℚ} {thr : ℚ} :
    ∀ (fuel start j : ℕ), scanArea ys thr start fuel = some j →
      start ≤ j ∧ j ≤ start + fuel ∧ thr ≤ trapz (ys.take j) := by
  intro fuel
  induction fuel with
  | zero =>
    intro start j h
    by_cases hc : thr ≤ trapz (ys.take start)
    · simp only [scanArea, if_pos hc, Option.some.injEq] at h
      subst h
      exact ⟨le_refl _, by omega, hc⟩
    · simp only [scanArea, if_neg hc] at h
      exact Option.noConfusion h
  | succ fuel ih =>
    intro start j h
    by_cases hc : thr ≤ trapz (ys.take start)
    · simp only [scanArea, if_pos hc, Option.some.injEq] at h
      subst h
      exact ⟨le_refl _, by omega, hc⟩
    · simp only [scanArea, if_neg hc] at h
      obtain ⟨a, b, c⟩ := ih (start + 1) j h
      exact ⟨by omega, by omega, c⟩

/-- The scan terminates as soon as some in-range index reaches the
threshold. -/
lemma scanArea_isSome {ys : List ℚ} {thr : ℚ} :
    ∀ (fuel start : ℕ),
      (∃ j, start ≤ j ∧ j ≤ start + fuel ∧ thr ≤ trapz (ys.take j)) →
      ∃ r, scanArea ys thr start fuel = some r := by
  intro fuel
  induction fuel with
  | zero =>
    intro start h
    obtain ⟨j, h1, h2, h3⟩ := h
    have hj : j = start := by omega
    subst hj
    exact ⟨j, scanArea_here h3⟩
  | succ fuel ih =>
    intro start h
    obtain ⟨j, h1, h2, h3⟩ := h
    by_cases hc : thr ≤ trapz (ys.take start)
    · exact ⟨start, scanArea_here hc⟩
    · have hj : start + 1 ≤ j := by
        rcases Nat.eq_or_lt_of_le h1 with rfl | hlt
        · exact absurd h3 hc
        · omega
      obtain ⟨r, hr⟩ := ih (start + 1) ⟨j, hj, by omega, h3⟩
      refine ⟨r, ?_⟩
      simp only [scanArea, if_neg hc]
      exact hr

/-- A successful model-mode scan never moves backwards. -/
lemma scanModel_start {cdf : ℝ → ℝ → ℝ → ℝ → ℝ} {xs params : List ℝ} {thr : ℝ} :
    ∀ (fuel start j : ℕ), scanModel cdf xs params thr start fuel = some j → start ≤ j := by
  intro fuel
  induction fuel with
  | zero =>
    intro start j h
    simp only [scanModel] at h
    split at h
    · exact Option.noConfusion h
    · split at h
      · cases h
        exact le_refl _
      · exact Option.noConfusion h
  | succ fuel ih =>
    intro start j h
    simp only [scanModel] at h
    split at h
    · exact Option.noConfusion h
    · split at h
      · cases h
        exact le_refl _
      · have := ih (start + 1) j h
        omega

end ScanLemmas


/-- Claim C3: when both cumulative-area thresholds are reached, raw-mode
extraction returns the smallest index `lo` whose cumulative area reaches
`(1-area)/2 * total_area` and the smallest index `hi` reaching
`(1+area)/2 * total_area`, expanded outward by `(hi - lo) * extra_width`
and clamped by `max 0` and `min length`. -/
theorem raw_burst_range_thresholds (ys : List ℚ) (area ew : ℚ) (lo hi : ℕ)
    (hA : (1 - area) / 2 * trapz ys ≤ (1 + area) / 2 * trapz ys)
    (hlo : reachesAt ys ((1 - area) / 2 * trapz ys) lo)
    (hhi : reachesAt ys ((1 + area) / 2 * trapz ys) hi)
    (hlon : lo ≤ ys.length) (hhin : hi ≤ ys.length) :
    raw_burst_range ys area ew =
      some (max 0 ((lo : ℚ) - ((hi : ℚ) - (lo : ℚ)) * ew),
            min (ys.length : ℚ) ((hi : ℚ) + ((hi : ℚ) - (lo : ℚ)) * ew)) := by
  obtain ⟨hlo1, hlo2⟩ := hlo
  obtain ⟨hhi1, hhi2⟩ := hhi
  have hlohi : lo ≤ hi := by
    by_contra hcon
    push_neg at hcon
    exact absurd (le_trans hA hhi1) (not_le.mpr (hlo2 hi hcon))
  have h1 : scanArea ys ((1 - area) / 2 * trapz ys) 0 ys.length = some lo :=
    scanArea_eq_some _ 0 lo (Nat.zero_le lo) (by omega) hlo1 fun k _ hk => hlo2 k hk
  have h2 : scanArea ys ((1 + area) / 2 * trapz ys) lo (ys.length - lo) = some hi :=
    scanArea_eq_some _ lo hi hlohi (by omega) hhi1 fun k _ hk => hhi2 k hk
  simp only [raw_burst_range, h1, h2]

/-- Witness for C3 on `ys = [0, 2, 0]`, `area = 1/2`, `extra_width = 1`. -/
theorem raw_burst_range_thresholds_witness :
    raw_burst_range [0, 2, 0] (1/2) 1 = some (1, 3) := by
  have hlo : reachesAt [0, 2, 0] ((1 - 1/2) / 2 * trapz [0, 2, 0]) 2 := by
    unfold reachesAt
    constructor
    · norm_num [trapz]
    · intro k hk
      interval_cases k <;> norm_num [trapz]
  have hhi : reachesAt [0, 2, 0] ((1 + 1/2) / 2 * trapz [0, 2, 0]) 3 := by
    unfold reachesAt
    constructor
    · norm_num [trapz]
    · intro k hk
      interval_cases k <;> norm_num [trapz]
  have h := raw_burst_range_thresholds [0, 2, 0] (1/2) 1 2 3 (by norm_num [trapz]) hlo hhi
    (by norm_num) (by norm_num)
  rw [h]
  norm_num [max_def, min_def]

/-- Claim C10: the expansion width `(hi - lo) * extra_width` is applied
without rounding: whenever the two scans return indices `lo` and `i`, the
returned pair is exactly the rationals `max(0, lo - width)` and
`min(length, i + width)`; on `[0, 1, 0]` with `area = 9/10`,
`extra_width = 1/2` the lower bound is the non-integer rational `3/2`. -/
theorem raw_burst_range_fractional_bounds :
    (∀ (ys : List ℚ) (area ew : ℚ) (lo i : ℕ),
      scanArea ys ((1 - area) / 2 * trapz ys) 0 ys.length = some lo →
      scanArea ys ((1 + area) / 2 * trapz ys) lo (ys.length - lo) = some i →
      raw_burst_range ys area ew =
        some (max 0 ((lo : ℚ) - ((i : ℚ) - (lo : ℚ)) * ew),
              min (ys.length : ℚ) ((i : ℚ) + ((i : ℚ) - (lo : ℚ)) * ew))) ∧
    raw_burst_range [0, 1, 0] (9/10) (1/2) = some (3/2, 3) ∧
    ∀ n : ℤ, (3 : ℚ) / 2 ≠ (n : ℚ) := by
  refine ⟨?_, ?_, ?_⟩
  · intro ys area ew lo i h1 h2
    simp only [raw_burst_range, h1, h2]
  · norm_num [raw_burst_range, scanArea, trapz, max_def, min_def]
  · intro n h
    have h2 : (3 : ℚ) = (n : ℚ) * 2 := by
      rw [div_eq_iff (by norm_num : (2:ℚ) ≠ 0)] at h
      exact h
    have h3 : (3 : ℤ) = n * 2 := by exact_mod_cast h2
    omega

/-- Witness for C10 on `ys = [2, 2]`. -/
theorem raw_burst_range_fractional_bounds_witness :
    raw_burst_range [2, 2] 0 0 = some (2, 2) := by
  have h := raw_burst_range_fractional_bounds.1 [2, 2] 0 0 2 2
    (by norm_num [scanArea, trapz]) (by norm_num [scanArea, trapz])
  rw [h]
  norm_num [max_def, min_def]

/-- Claim C8 counterexample: on `ys = [1, 0]` (a burst whose mass sits at the
first sample) the raw extractor produces `low = high = 2`: the BurstRange
invariant `low < high` fails, and the enclosed area is zero. -/
theorem burst_range_low_eq_high :
    raw_burst_range [1, 0] (9/10) (1/2) = some (2, 2) ∧ ¬ ((2 : ℚ) < 2) := by
  constructor
  · norm_num [raw_burst_range, scanArea, trapz, max_def, min_def]
  · norm_num

/-- Claim C8 amended: every pair produced by the extractors satisfies
`low ≤ high` (raw mode needs `0 ≤ extra_width`); strict inequality can fail
when one scan step crosses both thresholds. -/
theorem burst_range_low_le_high :
    (∀ (ys : List ℚ) (area ew : ℚ) (lo hi : ℚ), 0 ≤ ew →
      raw_burst_range ys area ew = some (lo, hi) → lo ≤ hi) ∧
    (∀ (cdf : ℝ → ℝ → ℝ → ℝ → ℝ) (xs params : List ℝ) (area : ℝ) (lo hi : ℕ),
      model_burst_range cdf xs params area = some (lo, hi) → lo ≤ hi) := by
  constructor
  · intro ys area ew lo hi hew h
    simp only [raw_burst_range] at h
    split at h
    · exact Option.noConfusion h
    · next low heq1 =>
      split at h
      · exact Option.noConfusion h
      · next i heq2 =>
        rw [Option.some.injEq, Prod.mk.injEq] at h
        obtain ⟨hl, hh⟩ := h
        subst hl
        subst hh
        obtain ⟨_, hlo1, _⟩ := scanArea_bounds _ 0 low heq1
        obtain ⟨hli, hi1, _⟩ := scanArea_bounds _ low i heq2
        have hlen_low : low ≤ ys.length := by omega
        have hlen_i : i ≤ ys.length := by omega
        have hcast : (low : ℚ) ≤ (i : ℚ) := Nat.cast_le.mpr hli
        have hw : 0 ≤ ((i : ℚ) - (low : ℚ)) * ew :=
          mul_nonneg (sub_nonneg.mpr hcast) hew
        apply max_le
        · exact le_min (Nat.cast_nonneg _)
            (add_nonneg (Nat.cast_nonneg _) hw)
        · apply le_min
          · calc (low : ℚ) - ((i : ℚ) - (low : ℚ)) * ew ≤ (low : ℚ) := by linarith
              _ ≤ (ys.length : ℚ) := Nat.cast_le.mpr hlen_low
          · linarith
  · intro cdf xs params area lo hi h
    simp only [model_burst_range] at h
    split at h
    · exact Option.noConfusion h
    · next xlast heq0 =>
      split at h
      · exact Option.noConfusion h
      · next low heq1 =>
        split at h
        · exact Option.noConfusion h
        · next i heq2 =>
          rw [Option.some.injEq, Prod.mk.injEq] at h
          obtain ⟨hl, hh⟩ := h
          subst hl
          subst hh
          exact scanModel_start _ low i heq2

/-- Witness for C8 (raw mode) on `ys = [0, 4, 0]`. -/
theorem burst_range_low_le_high_witness : (0 : ℚ) ≤ 3 :=
  burst_range_low_le_high.1 [0, 4, 0] (1/2) 2 0 3 (by norm_num)
    (by norm_num [raw_burst_range, scanArea, trapz, max_def, min_def])

/-- Claim C4 counterexample: on an all-zero (or empty) intensity array the
raw extractor does not signal a failure: it silently returns the pair
`(0, 0)`. -/
theorem raw_burst_range_allzero_value :
    raw_burst_range [0, 0, 0] (9/10) (1/2) = some (0, 0) ∧
    raw_burst_range [] (9/10) (1/2) = some (0, 0) := by
  constructor <;> norm_num [raw_burst_range, scanArea, trapz, max_def, min_def]

/-- Claim C4 amended: for any configured `0 ≤ area ≤ 1` the scans always
terminate within bounds, so `raw_burst_range` always returns a value and
never signals; when the total trapezoidal area is zero — in particular for
empty or all-zero input — that value is `(0, 0)`. -/
theorem raw_burst_range_total (ys : List ℚ) (area ew : ℚ)
    (h0 : 0 ≤ area) (h1 : area ≤ 1) :
    (∃ p, raw_burst_range ys area ew = some p) ∧
    (trapz ys = 0 → raw_burst_range ys area ew = some (0, 0)) := by
  have hcl : trapz (ys.take ys.length) = trapz ys := by rw [List.take_length]
  constructor
  · rcases le_or_lt 0 (trapz ys) with hT | hT
    · have hlow : (1 - area) / 2 * trapz ys ≤ trapz (ys.take ys.length) := by
        rw [hcl]
        exact mul_le_of_le_one_left hT (by linarith)
      obtain ⟨lo, hlo⟩ :=
        scanArea_isSome ys.length 0 ⟨ys.length, Nat.zero_le _, by omega, hlow⟩
      obtain ⟨hlo0, hlo1, _⟩ := scanArea_bounds _ 0 lo hlo
      have hhigh : (1 + area) / 2 * trapz ys ≤ trapz (ys.take ys.length) := by
        rw [hcl]
        exact mul_le_of_le_one_left hT (by linarith)
      obtain ⟨hi, hhi⟩ :=
        scanArea_isSome (ys.length - lo) lo ⟨ys.length, by omega, by omega, hhigh⟩
      have hsome : (raw_burst_range ys area ew).isSome := by
        simp only [raw_burst_range, hlo, hhi, Option.isSome_some]
      exact Option.isSome_iff_exists.mp hsome
    · have hz : trapz (ys.take 0) = 0 := by simp [trapz]
      have hlow : (1 - area) / 2 * trapz ys ≤ trapz (ys.take 0) := by
        rw [hz]
        calc (1 - area) / 2 * trapz ys ≤ (1 - area) / 2 * 0 :=
              mul_le_mul_of_nonneg_left hT.le (by linarith)
          _ = 0 := by ring
      have hhigh : (1 + area) / 2 * trapz ys ≤ trapz (ys.take 0) := by
        rw [hz]
        calc (1 + area) / 2 * trapz ys ≤ (1 + area) / 2 * 0 :=
              mul_le_mul_of_nonneg_left hT.le (by linarith)
          _ = 0 := by ring
      have hlo : scanArea ys ((1 - area) / 2 * trapz ys) 0 ys.length = some 0 :=
        scanArea_here hlow
      have hhi : scanArea ys ((1 + area) / 2 * trapz ys) 0 (ys.length - 0) = some 0 :=
        scanArea_here hhigh
      have hsome : (raw_burst_range ys area ew).isSome := by
        simp only [raw_burst_range, hlo, hhi, Option.isSome_some]
      exact Option.isSome_iff_exists.mp hsome
  · intro hzt
    have hz : trapz (ys.take 0) = 0 := by simp [trapz]
    have hlow : (1 - area) / 2 * trapz ys ≤ trapz (ys.take 0) := by
      rw [hz, hzt, mul_zero]
    have hhigh : (1 + area) / 2 * trapz ys ≤ trapz (ys.take 0) := by
      rw [hz, hzt, mul_zero]
    have hlo : scanArea ys ((1 - area) / 2 * trapz ys) 0 ys.length = some 0 :=
      scanArea_here hlow
    have hhi : scanArea ys ((1 + area) / 2 * trapz ys) 0 (ys.length - 0) = some 0 :=
      scanArea_here hhigh
    simp only [raw_burst_range, hlo, hhi]
    have hmin : (ys.length : ℚ) ⊓ ((0 : ℕ) + ((0 : ℕ) - (0 : ℕ)) * ew) = 0 := by
      norm_num
    norm_num

/-- Witness for C4 on `ys = [0, 0]`. -/
theorem raw_burst_range_total_witness :
    raw_burst_range [0, 0] (1/3) 5 = some (0, 0) :=
  (raw_burst_range_total [0, 0] (1/3) 5 (by norm_num) (by norm_num)).2
    (by norm_num [trapz])

section ErfLemmas

/-- A single-component parameter vector evaluates to one weighted density
value. -/
lemma exgauss_single (f : ℝ → ℝ → ℝ → ℝ → ℝ) (x a u sd ts : ℝ) :
    exgauss f x [a, u, sd, ts] = a * f x (ts / sd) u sd := by
  rw [exgauss_eq_sum f x [a, u, sd, ts] 1 (by simp)]
  simp

lemma erf_zero : erf 0 = 0 := by
  unfold erf
  rw [intervalIntegral.integral_same]
  ring

lemma erf_nonpos {z : ℝ} (hz : z ≤ 0) : erf z ≤ 0 := by
  unfold erf
  have h1 : (0:ℝ) ≤ ∫ t in z..(0:ℝ), Real.exp (-(t ^ 2)) :=
    intervalIntegral.integral_nonneg hz fun u _ => (Real.exp_pos _).le
  have h2 : (∫ t in (0:ℝ)..z, Real.exp (-(t ^ 2))) =
      -∫ t in z..(0:ℝ), Real.exp (-(t ^ 2)) := by
    rw [intervalIntegral.integral_symm]
  rw [h2]
  have h3 : (0:ℝ) ≤ 2 / Real.sqrt Real.pi := by positivity
  nlinarith

lemma erfc_ge_one {z : ℝ} (hz : z ≤ 0) : 1 ≤ erfc z := by
  unfold erfc
  have h := erf_nonpos hz
  linarith

/-- The Gaussian integrand is bounded by 1, so `|erf z| ≤ 2/√π * |z|`. -/
lemma abs_erf_le (z : ℝ) : |erf z| ≤ 2 / Real.sqrt Real.pi * |z| := by
  unfold erf
  rw [abs_mul]
  have hb : ∀ t ∈ Set.uIoc (0:ℝ) z, ‖Real.exp (-(t ^ 2))‖ ≤ 1 := by
    intro t _
    rw [Real.norm_eq_abs, abs_of_pos (Real.exp_pos _)]
    exact Real.exp_le_one_iff.mpr (neg_nonpos.mpr (sq_nonneg t))
  have h1 := intervalIntegral.norm_integral_le_of_norm_le_const hb
  rw [Real.norm_eq_abs, sub_zero, one_mul] at h1
  have h2 : |2 / Real.sqrt Real.pi| = 2 / Real.sqrt Real.pi :=
    abs_of_nonneg (by positivity)
  rw [h2]
  exact mul_le_mul_of_nonneg_left h1 (by positivity)

lemma erfc_arg_bound : erfc (-(2 / Real.sqrt 2)) < 3 := by
  have h2 : (1.4 : ℝ) < Real.sqrt 2 := by
    rw [Real.lt_sqrt (by norm_num)]
    norm_num
  have hπ : (1.7 : ℝ) < Real.sqrt Real.pi := by
    rw [Real.lt_sqrt (by norm_num)]
    nlinarith [Real.pi_gt_three]
  have hπ0 : (0:ℝ) < Real.sqrt Real.pi := lt_trans (by norm_num) hπ
  have h20 : (0:ℝ) < Real.sqrt 2 := lt_trans (by norm_num) h2
  have habs := abs_erf_le (-(2 / Real.sqrt 2))
  have hz : |(-(2 / Real.sqrt 2) : ℝ)| = 2 / Real.sqrt 2 := by
    rw [abs_neg, abs_of_nonneg (by positivity)]
  rw [hz] at habs
  have hmul : (2:ℝ) < Real.sqrt Real.pi * Real.sqrt 2 := by nlinarith
  have hsB : 2 / Real.sqrt Real.pi * (2 / Real.sqrt 2) < 2 := by
    rw [div_mul_div_comm, div_lt_iff₀ (by positivity)]
    nlinarith
  have h1 := (abs_le.mp habs).1
  unfold erfc
  linarith

/-- At shape 1, loc 0, scale 1 the density is strictly positive on the
exponential tail. -/
lemma exponnorm_pdf_pos_tail {x : ℝ} (hx : 1 ≤ x) : 0 < exponnorm_pdf x 1 0 1 := by
  unfold exponnorm_pdf
  have hnum : -((x - 0) / 1 - 1 / 1) ≤ 0 := by
    have h : (x - 0) / 1 - 1 / 1 = x - 1 := by norm_num
    rw [h]
    linarith
  have harg : -((x - 0) / 1 - 1 / 1) / Real.sqrt 2 ≤ 0 :=
    div_nonpos_of_nonpos_of_nonneg hnum (Real.sqrt_nonneg 2)
  have herfc := erfc_ge_one harg
  have hpos : (0:ℝ) < 1 / (2 * 1 * 1) * Real.exp (1 / (2 * 1 ^ 2) - (x - 0) / (1 * 1)) := by
    positivity
  nlinarith

/-- The density at shape 1, loc 0, scale 1 is strictly smaller at `x = 3`
than at `x = 1` (where `erfc` takes the exact value 1). -/
lemma exponnorm_pdf_three_lt_one : exponnorm_pdf 3 1 0 1 < exponnorm_pdf 1 1 0 1 := by
  unfold exponnorm_pdf
  have hz1 : -((1 - 0) / 1 - 1 / 1) / Real.sqrt 2 = (0:ℝ) := by norm_num
  have hz3 : -((3 - 0) / 1 - 1 / 1) / Real.sqrt 2 = -(2 / Real.sqrt 2) := by
    rw [show ((3:ℝ) - 0) / 1 - 1 / 1 = 2 by norm_num, neg_div]
  have he1 : (1:ℝ) / (2 * 1 ^ 2) - (1 - 0) / (1 * 1) = -(1/2) := by norm_num
  have he3 : (1:ℝ) / (2 * 1 ^ 2) - (3 - 0) / (1 * 1) = -(5/2) := by norm_num
  rw [hz1, hz3, he1, he3]
  have herfc0 : erfc 0 = 1 := by
    unfold erfc
    rw [erf_zero]
    norm_num
  rw [herfc0]
  have hb := erfc_arg_bound
  have hpos : (0:ℝ) < Real.exp (-(5/2 : ℝ)) := Real.exp_pos _
  have h3 : Real.exp (-(5/2:ℝ)) * 3 ≤ Real.exp (-(1/2:ℝ)) := by
    have he2 : (3:ℝ) ≤ Real.exp 2 := by
      have h := Real.add_one_le_exp (2:ℝ)
      linarith
    have heq : Real.exp (-(1/2:ℝ)) = Real.exp (-(5/2:ℝ)) * Real.exp 2 := by
      rw [← Real.exp_add]
      norm_num
    rw [heq]
    exact mul_le_mul_of_nonneg_left he2 hpos.le
  nlinarith

end ErfLemmas

/-- Claim C7 counterexample: the parameter vector `[-1, 0, 1, 1]` is valid
(length 4 = 3·1 + 1) yet `exgauss` with the scipy density is negative at
`x = 3`: amplitudes are not constrained to be nonnegative. -/
theorem exgauss_negative_value : exgauss exponnorm_pdf 3 [-1, 0, 1, 1] < 0 := by
  rw [exgauss_single]
  rw [show (1:ℝ) / 1 = 1 by norm_num]
  have h := exponnorm_pdf_pos_tail (show (1:ℝ) ≤ 3 by norm_num)
  nlinarith

/-- Claim C7 amended: under the documented behaviour of the scipy library
functions (a nonnegative pdf and a cdf nondecreasing in the point with limit
1 at +∞) and for parameter vectors with nonnegative amplitudes, `exgauss` is
nonnegative everywhere, `integral` is nondecreasing in `x`, and `integral`
tends to the total area (the sum of the amplitudes) as `x → ∞`. -/
theorem exgauss_nonneg_integral_mono_tendsto (pdf cdf : ℝ → ℝ → ℝ → ℝ → ℝ)
    (args : List ℝ) (k : ℕ) (h : args.length = 3 * k + 1)
    (hamp : ∀ i < k, 0 ≤ args.getD (3 * i) 0)
    (hpdf : ∀ x K l s, 0 ≤ pdf x K l s)
    (hcdf_mono : ∀ K l s, Monotone fun x => cdf x K l s)
    (hcdf_lim : ∀ K l s, Filter.Tendsto (fun x => cdf x K l s) Filter.atTop (nhds 1)) :
    (∀ x, 0 ≤ exgauss pdf x args) ∧
    Monotone (fun x => integral cdf x args) ∧
    Filter.Tendsto (fun x => integral cdf x args) Filter.atTop
      (nhds (∑ i ∈ Finset.range k, args.getD (3 * i) 0)) := by
  have hfun : (fun x => integral cdf x args) = fun x => ∑ i ∈ Finset.range k,
      args.getD (3 * i) 0 * cdf x (args.getD (3 * k) 0 / args.getD (3 * i + 2) 0)
        (args.getD (3 * i + 1) 0) (args.getD (3 * i + 2) 0) :=
    funext fun x => integral_eq_sum cdf x args k h
  refine ⟨?_, ?_, ?_⟩
  · intro x
    rw [exgauss_eq_sum pdf x args k h]
    exact Finset.sum_nonneg fun i hi =>
      mul_nonneg (hamp i (Finset.mem_range.mp hi)) (hpdf _ _ _ _)
  · rw [hfun]
    intro a b hab
    exact Finset.sum_le_sum fun i hi =>
      mul_le_mul_of_nonneg_left (hcdf_mono _ _ _ hab) (hamp i (Finset.mem_range.mp hi))
  · rw [hfun]
    have ht := tendsto_finset_sum (Finset.range k) fun i _ =>
      (hcdf_lim (args.getD (3 * k) 0 / args.getD (3 * i + 2) 0)
        (args.getD (3 * i + 1) 0) (args.getD (3 * i + 2) 0)).const_mul
        (args.getD (3 * i) 0)
    simpa using ht

/-- Witness for C7 with a constant pdf/cdf pair satisfying the contract and
the single-component vector `[2, 0, 1, 1]`. -/
theorem exgauss_nonneg_integral_mono_tendsto_witness :
    Filter.Tendsto (fun x => integral (fun _ _ _ _ => (1:ℝ)) x [2, 0, 1, 1])
      Filter.atTop (nhds 2) := by
  have h := (exgauss_nonneg_integral_mono_tendsto (fun _ _ _ _ => (0:ℝ))
    (fun _ _ _ _ => (1:ℝ)) [2, 0, 1, 1] 1 (by simp)
    (fun i hi => by interval_cases i; norm_num)
    (fun _ _ _ _ => le_refl 0)
    (fun _ _ _ => monotone_const)
    (fun _ _ _ => tendsto_const_nhds)).2.2
  simpa using h

/-- Claim C5 amended: provided `SS_tot ≠ 0` (otherwise `R²` itself is
already a non-finite float in the program, whatever the denominator),
`adjusted_rsquared` returns the finite value
`1 - (1 - R²)(n - 1)/(n - p - 1)` whenever `n - p - 1 ≠ 0` (also when it is
negative) and yields no finite value exactly when `n - p - 1 = 0`.  The
`ss_tot ys ≠ 0` hypothesis marks the region where the `ℝ` embedding of the
float arithmetic is faithful; the proof itself is about the embedded
definition. -/
theorem adjusted_rsquared_none_iff (pdf : ℝ → ℝ → ℝ → ℝ → ℝ) (xs ys params : List ℝ)
    (hss : ss_tot ys ≠ 0) :
    (adjusted_rsquared pdf xs ys params = none ↔
      (xs.length : ℤ) - params.length - 1 = 0) ∧
    ((xs.length : ℤ) - params.length - 1 ≠ 0 →
      adjusted_rsquared pdf xs ys params =
        some (1 - (1 - rsquared pdf xs ys params) * ((xs.length : ℝ) - 1) /
          ((xs.length : ℝ) - params.length - 1))) := by
  unfold adjusted_rsquared
  constructor
  · by_cases h : ((xs.length : ℤ) - params.length - 1) = 0
    · rw [if_pos h]
      simp [h]
    · rw [if_neg h]
      simp [h]
  · intro h
    rw [if_neg h]

/-- Witness for C5 at `n = 3`, `p = 1`, `ss_tot = 2/3 ≠ 0`:
`R² = -1/2` and the adjusted value is the finite `-2`. -/
theorem adjusted_rsquared_none_iff_witness :
    adjusted_rsquared (fun _ _ _ _ => 0) [0, 1, 2] [0, 1, 0] [3] = some (-2) := by
  have h := (adjusted_rsquared_none_iff (fun _ _ _ _ => 0) [0, 1, 2] [0, 1, 0] [3]
    (by norm_num [ss_tot])).2 (by norm_num)
  rw [h]
  norm_num [rsquared, ss_res, ss_tot, residuals, exgauss, List.range']

/-- Claim C5 counterexample: with `n = 2` samples and `p = 4` parameters the
denominator `n - p - 1 = -3` is negative; the claim predicts a failure
(NaN or error), but the code returns the finite value `5/3`. -/
theorem adjusted_rsquared_finite_neg_denom :
    (([(0:ℝ), 1].length : ℤ) - ([(0:ℝ), 0, 1, 1].length : ℤ) - 1 < 0) ∧
    adjusted_rsquared exponnorm_pdf [0, 1] [0, 1] [0, 0, 1, 1] = some (5/3) := by
  constructor
  · norm_num
  · have hmodel : ∀ x : ℝ, exgauss exponnorm_pdf x [0, 0, 1, 1] = 0 := by
      intro x
      rw [exgauss_single]
      ring
    norm_num [adjusted_rsquared, rsquared, ss_res, ss_tot, residuals, hmodel]

/-- Sums of squares are nonnegative. -/
lemma ss_res_nonneg (pdf : ℝ → ℝ → ℝ → ℝ → ℝ) (xs ys params : List ℝ) :
    0 ≤ ss_res pdf xs ys params := by
  apply List.sum_nonneg
  intro a ha
  obtain ⟨r, _, rfl⟩ := List.mem_map.mp ha
  positivity

lemma ss_tot_nonneg (ys : List ℝ) : 0 ≤ ss_tot ys := by
  apply List.sum_nonneg
  intro a ha
  obtain ⟨r, _, rfl⟩ := List.mem_map.mp ha
  positivity

/-- `R² = 1 - ss_res/ss_tot ≤ 1` (also at `ss_tot = 0` in the embedding,
where the quotient is 0). -/
lemma rsquared_le_one (pdf : ℝ → ℝ → ℝ → ℝ → ℝ) (xs ys params : List ℝ) :
    rsquared pdf xs ys params ≤ 1 := by
  unfold rsquared
  have h := div_nonneg (ss_res_nonneg pdf xs ys params) (ss_tot_nonneg ys)
  linarith

/-- Claim C6 amended: whenever `n - p - 1 > 0` (and `ss_tot ≠ 0`, where the
float code computes finite values), adjusted R² is at most R², with equality
if and only if `p = 0` or `R² = 1` (a perfect fit). -/
theorem adjusted_le_rsquared (pdf : ℝ → ℝ → ℝ → ℝ → ℝ) (xs ys params : List ℝ) (v : ℝ)
    (hn : 0 < (xs.length : ℤ) - params.length - 1)
    (hss : ss_tot ys ≠ 0)
    (hv : adjusted_rsquared pdf xs ys params = some v) :
    v ≤ rsquared pdf xs ys params ∧
      (v = rsquared pdf xs ys params ↔
        params.length = 0 ∨ rsquared pdf xs ys params = 1) := by
  have hne : ((xs.length : ℤ) - params.length - 1) ≠ 0 := by omega
  unfold adjusted_rsquared at hv
  rw [if_neg hne, Option.some.injEq] at hv
  have hd : (0 : ℝ) < (xs.length : ℝ) - params.length - 1 := by exact_mod_cast hn
  have hrs1 : rsquared pdf xs ys params ≤ 1 := rsquared_le_one pdf xs ys params
  have hp : (0:ℝ) ≤ (params.length : ℝ) := Nat.cast_nonneg _
  have key : 1 - (1 - rsquared pdf xs ys params) * ((xs.length : ℝ) - 1) /
      ((xs.length : ℝ) - params.length - 1) =
      rsquared pdf xs ys params - (1 - rsquared pdf xs ys params) * params.length /
      ((xs.length : ℝ) - params.length - 1) := by
    field_simp
    ring
  rw [key] at hv
  subst hv
  constructor
  · have hnn : 0 ≤ (1 - rsquared pdf xs ys params) * (params.length : ℝ) /
        ((xs.length : ℝ) - params.length - 1) :=
      div_nonneg (mul_nonneg (by linarith) hp) hd.le
    linarith
  · constructor
    · intro he
      have h0 : (1 - rsquared pdf xs ys params) * (params.length : ℝ) /
          ((xs.length : ℝ) - params.length - 1) = 0 := by linarith
      rcases div_eq_zero_iff.mp h0 with h0 | h0
      · rcases mul_eq_zero.mp h0 with h0 | h0
        · right
          linarith
        · left
          exact_mod_cast h0
      · exact absurd h0 (by linarith)
    · intro he
      rcases he with he | he
      · rw [he]
        simp
      · rw [he]
        simp

/-- Witness for C6 at `n = 3`, `p = 1`, where adjusted R² = -2 < -1/2 = R². -/
theorem adjusted_le_rsquared_witness :
    (-2 : ℝ) ≤ rsquared (fun _ _ _ _ => 0) [0, 1, 2] [0, 1, 0] [5] :=
  (adjusted_le_rsquared (fun _ _ _ _ => 0) [0, 1, 2] [0, 1, 0] [5] (-2)
    (by norm_num)
    (by norm_num [ss_tot])
    (by norm_num [adjusted_rsquared, rsquared, ss_res, ss_tot, residuals, exgauss,
      List.range'])).1

/-- Claim C6 counterexample: sampling the model itself (a perfect fit,
`ss_res = 0`, so `R² = 1`) with `n = 6`, `p = 4`, `n - p - 1 = 1 > 0` and a
non-constant response (`ss_tot ≠ 0`) makes adjusted R² equal to R² although
`p ≠ 0`, refuting "equality only when p = 0". -/
theorem adjusted_eq_rsquared_perfect_fit :
    0 < (([(1:ℝ), 3, 3, 3, 3, 3].length : ℤ) - ([(1:ℝ), 0, 1, 1].length : ℤ) - 1) ∧
    [(1:ℝ), 0, 1, 1].length ≠ 0 ∧
    ss_tot ([(1:ℝ), 3, 3, 3, 3, 3].map fun x => exgauss exponnorm_pdf x [1, 0, 1, 1]) ≠ 0 ∧
    adjusted_rsquared exponnorm_pdf [1, 3, 3, 3, 3, 3]
      ([(1:ℝ), 3, 3, 3, 3, 3].map fun x => exgauss exponnorm_pdf x [1, 0, 1, 1])
      [1, 0, 1, 1] =
      some (rsquared exponnorm_pdf [1, 3, 3, 3, 3, 3]
        ([(1:ℝ), 3, 3, 3, 3, 3].map fun x => exgauss exponnorm_pdf x [1, 0, 1, 1])
        [1, 0, 1, 1]) := by
  have hv1 : exgauss exponnorm_pdf 1 [1, 0, 1, 1] = exponnorm_pdf 1 1 0 1 := by
    rw [exgauss_single, show (1:ℝ)/1 = 1 by norm_num, one_mul]
  have hv3 : exgauss exponnorm_pdf 3 [1, 0, 1, 1] = exponnorm_pdf 3 1 0 1 := by
    rw [exgauss_single, show (1:ℝ)/1 = 1 by norm_num, one_mul]
  have hlt : exponnorm_pdf 3 1 0 1 < exponnorm_pdf 1 1 0 1 := exponnorm_pdf_three_lt_one
  have hne : exponnorm_pdf 1 1 0 1 - exponnorm_pdf 3 1 0 1 ≠ 0 := by linarith
  refine ⟨by norm_num, by norm_num, ?_, ?_⟩
  · simp only [List.map_cons, List.map_nil, hv1, hv3]
    have hss : ss_tot [exponnorm_pdf 1 1 0 1, exponnorm_pdf 3 1 0 1, exponnorm_pdf 3 1 0 1,
        exponnorm_pdf 3 1 0 1, exponnorm_pdf 3 1 0 1, exponnorm_pdf 3 1 0 1] =
        5/6 * (exponnorm_pdf 1 1 0 1 - exponnorm_pdf 3 1 0 1)^2 := by
      simp [ss_tot]
      ring
    rw [hss]
    exact mul_ne_zero (by norm_num) (pow_ne_zero 2 hne)
  · have hres : ss_res exponnorm_pdf [1, 3, 3, 3, 3, 3]
        ([(1:ℝ), 3, 3, 3, 3, 3].map fun x => exgauss exponnorm_pdf x [1, 0, 1, 1])
        [1, 0, 1, 1] = 0 := by
      simp [ss_res, residuals]
    have hrs : rsquared exponnorm_pdf [1, 3, 3, 3, 3, 3]
        ([(1:ℝ), 3, 3, 3, 3, 3].map fun x => exgauss exponnorm_pdf x [1, 0, 1, 1])
        [1, 0, 1, 1] = 1 := by
      unfold rsquared
      rw [hres, zero_div, sub_zero]
    unfold adjusted_rsquared
    rw [if_neg (by norm_num), hrs]
    norm_num
